import Mathlib

/-!
Verification development for the TapirLab kitt-effect audio-visualization
pipeline (src/kitt_effect.py, src/main.py).

The Python core is shallowly embedded over exact rationals (energies,
thresholds, audio samples) and, where the source applies `np.sqrt`, over the
reals.  Python's `round` (round-half-to-even on exact values) is embedded as
`roundHalfEven` on rationals.  Fallible Python code (raised exceptions,
out-of-range list indexing) is embedded with `Option` / `Except`.
-/

namespace KittEffect

/-! ## Python rounding

Python's builtin `round` rounds to the nearest integer, resolving ties to the
even integer (banker's rounding).  At the concrete inputs the theorems below
evaluate, the IEEE-754 quotients the source computes coincide with the exact
rational quotients, so the rational model is exact there. -/

/-- Round-half-to-even on rationals, matching Python's builtin `round` at
exact inputs. -/
def roundHalfEven (q : ℚ) : ℤ :=
  if q - ⌊q⌋ < 1/2 then ⌊q⌋
  else if 1/2 < q - ⌊q⌋ then ⌊q⌋ + 1
  else if ⌊q⌋ % 2 = 0 then ⌊q⌋ else ⌊q⌋ + 1

/-- Case analysis for `roundHalfEven`: the result is the floor or the floor
plus one, governed by the fractional part and, at an exact tie, the parity of
the floor. -/
theorem roundHalfEven_char (q : ℚ) :
    (q - ⌊q⌋ < 1/2 ∧ roundHalfEven q = ⌊q⌋) ∨
    (1/2 < q - ⌊q⌋ ∧ roundHalfEven q = ⌊q⌋ + 1) ∨
    (q - ⌊q⌋ = 1/2 ∧ ⌊q⌋ % 2 = 0 ∧ roundHalfEven q = ⌊q⌋) ∨
    (q - ⌊q⌋ = 1/2 ∧ ⌊q⌋ % 2 ≠ 0 ∧ roundHalfEven q = ⌊q⌋ + 1) := by
  unfold roundHalfEven
  rcases lt_trichotomy (q - ⌊q⌋) (1/2 : ℚ) with h | h | h
  · left; exact ⟨h, if_pos h⟩
  · by_cases he : ⌊q⌋ % 2 = 0
    · right; right; left
      refine ⟨h, he, ?_⟩
      rw [if_neg (by rw [h]; exact lt_irrefl _),
          if_neg (by rw [h]; exact lt_irrefl _), if_pos he]
    · right; right; right
      refine ⟨h, he, ?_⟩
      rw [if_neg (by rw [h]; exact lt_irrefl _),
          if_neg (by rw [h]; exact lt_irrefl _), if_neg he]
  · right; left
    refine ⟨h, ?_⟩
    rw [if_neg (not_lt.2 (le_of_lt h)), if_pos h]

theorem roundHalfEven_bounds (q : ℚ) :
    ⌊q⌋ ≤ roundHalfEven q ∧ roundHalfEven q ≤ ⌊q⌋ + 1 := by
  rcases roundHalfEven_char q with ⟨_, h⟩ | ⟨_, h⟩ | ⟨_, _, h⟩ | ⟨_, _, h⟩ <;> omega

theorem roundHalfEven_nonneg {q : ℚ} (h : 0 ≤ q) : 0 ≤ roundHalfEven q := by
  have hf : (0:ℤ) ≤ ⌊q⌋ := Int.le_floor.2 (by exact_mod_cast h)
  have := roundHalfEven_bounds q
  omega

theorem roundHalfEven_mono {q r : ℚ} (h : q ≤ r) :
    roundHalfEven q ≤ roundHalfEven r := by
  have hfl : ⌊q⌋ ≤ ⌊r⌋ := Int.floor_mono h
  rcases lt_or_eq_of_le hfl with hlt | heq
  · have h1 := roundHalfEven_bounds q
    have h2 := roundHalfEven_bounds r
    omega
  · have hfrac : q - ⌊q⌋ ≤ r - ⌊r⌋ := by
      rw [← heq]; linarith
    rcases roundHalfEven_char q with ⟨h1, h2⟩ | ⟨h1, h2⟩ | ⟨h1, hp, h2⟩ | ⟨h1, hp, h2⟩ <;>
      rcases roundHalfEven_char r with ⟨g1, g2⟩ | ⟨g1, g2⟩ | ⟨g1, gp, g2⟩ | ⟨g1, gp, g2⟩ <;>
      first
        | omega
        | (exfalso; linarith)

/-! ## Level Quantizer (src/kitt_effect.py, `get_number_of_rectangles`)

The Python loop (lines 142-149) is

    counter, division = 0, 0
    while division != 1:
        if round(each_chunk / energy_thresholds[counter]) == 0:
            division = 1
        else:
            division = round(each_chunk / energy_thresholds[counter])
            counter += 1

so the loop exits when the rounded ratio at the current threshold is 0
(`division` set to 1 artificially, `counter` kept) or when the rounded ratio
is exactly 1 (`division` becomes 1 naturally, after `counter` was advanced).
Indexing `energy_thresholds[counter]` past the end of the list raises
`IndexError`; that outcome is embedded as `none`. -/

/-- Exception outcomes the embedded Python functions can raise. -/
inductive PyErr : Type
  | valueError : PyErr
  | indexError : PyErr
deriving DecidableEq, Repr

/-- One pass of the `while division != 1` loop, walking the remaining
threshold list with the current value of `counter`.  Running off the end of
the list is the `IndexError` case (`none`). -/
def walk : List ℚ → ℕ → ℚ → Option ℕ
  | [], _, _ => none
  | t :: rest, c, e =>
    if roundHalfEven (e / t) = 0 then some c
    else if roundHalfEven (e / t) = 1 then some (c + 1)
    else walk rest (c + 1) e

/-- Frame-rate-indexed threshold tables (lines 131-137); an unsupported FPS
raises `ValueError`, embedded as `none`. -/
def energy_thresholds (FPS : ℕ) : Option (List ℚ) :=
  if FPS = 10 then some [0.1, 0.8, 1.6, 2.4, 3.2, 4, 5, 6, 7, 8, 10]
  else if FPS = 15 then some [0.6, 1, 1.5, 2.0, 2.5, 3, 3.5, 4, 5, 7, 10]
  else none

/-- Mapping from the final `counter` to the stored activity level
(lines 152-155); the result array has dtype `np.uint8`, hence the mod 256. -/
def levelOfCounter (c : ℕ) : ℕ :=
  (if c = 0 then 0 else c * 2 + 1) % 256

/-- Activity level of a single chunk energy against a threshold table. -/
def quantOne (ths : List ℚ) (e : ℚ) : Option ℕ :=
  (walk ths 0 e).map levelOfCounter

/-- The loop over all chunk energies: the first raised exception aborts the
whole call. -/
def levelsOfEnergies (ths : List ℚ) : List ℚ → Except PyErr (List ℕ)
  | [] => .ok []
  | e :: rest =>
    match walk ths 0 e with
    | none => .error .indexError
    | some c =>
      match levelsOfEnergies ths rest with
      | .error err => .error err
      | .ok ls => .ok (levelOfCounter c :: ls)

/-- Embedding of `get_number_of_rectangles`: select the threshold table for
the FPS (raising `ValueError` otherwise), then quantize every chunk energy. -/
def get_number_of_rectangles (energies : List ℚ) (FPS : ℕ) :
    Except PyErr (List ℕ) :=
  match energy_thresholds FPS with
  | none => .error .valueError
  | some ths => levelsOfEnergies ths energies

/-- Modelled from the spec (claim C1 wording, §4.3): the iterative rule that
stops ONLY when the rounded ratio is 0, always advancing the cumulative
counter otherwise. -/
def specWalk : List ℚ → ℕ → ℚ → Option ℕ
  | [], _, _ => none
  | t :: rest, c, e =>
    if roundHalfEven (e / t) = 0 then some c
    else specWalk rest (c + 1) e

/-- The quantizer counter described by the amended claim C1: find the first
threshold index whose rounded ratio against `e` is at most 1; the counter is
that index when the rounded ratio there is 0, and the next index when the
rounded ratio there is exactly 1. -/
def amendedCounter (ths : List ℚ) (e : ℚ) : ℕ :=
  let j := ths.findIdx fun t => decide (roundHalfEven (e / t) ≤ 1)
  if roundHalfEven (e / ths.getD j 1) = 0 then j else j + 1

/-! ### Properties of the threshold walk -/

/-- The walk never decreases the running counter. -/
theorem walk_ge : ∀ (l : List ℚ) {c m : ℕ} {e : ℚ},
    walk l c e = some m → c ≤ m := by
  intro l
  induction l with
  | nil => intro c m e h; simp [walk] at h
  | cons t rest ih =>
    intro c m e h
    simp only [walk] at h
    split at h
    · have := Option.some.inj h; omega
    · split at h
      · have := Option.some.inj h; omega
      · exact le_trans (Nat.le_succ c) (ih h)

/-- Monotonicity of the walk's counter in the chunk energy. -/
theorem walk_mono {e1 e2 : ℚ} (h0 : 0 ≤ e1) (h12 : e1 ≤ e2) :
    ∀ (l : List ℚ), (∀ t ∈ l, 0 < t) → ∀ {c m1 m2},
      walk l c e1 = some m1 → walk l c e2 = some m2 → m1 ≤ m2 := by
  intro l
  induction l with
  | nil => intro _ c m1 m2 h1 _; simp [walk] at h1
  | cons t rest ih =>
    intro hpos c m1 m2 h1 h2
    have ht : 0 < t := hpos t (List.mem_cons_self t rest)
    have hr1 : 0 ≤ roundHalfEven (e1 / t) :=
      roundHalfEven_nonneg (div_nonneg h0 ht.le)
    have hrm : roundHalfEven (e1 / t) ≤ roundHalfEven (e2 / t) :=
      roundHalfEven_mono (by gcongr)
    simp only [walk] at h1 h2
    by_cases hz2 : roundHalfEven (e2 / t) = 0
    · have hz1 : roundHalfEven (e1 / t) = 0 := by omega
      rw [if_pos hz1] at h1; rw [if_pos hz2] at h2
      have := Option.some.inj h1; have := Option.some.inj h2; omega
    · by_cases ho2 : roundHalfEven (e2 / t) = 1
      · rw [if_neg hz2, if_pos ho2] at h2
        have hm2 := Option.some.inj h2
        by_cases hz1 : roundHalfEven (e1 / t) = 0
        · rw [if_pos hz1] at h1
          have := Option.some.inj h1; omega
        · have ho1 : roundHalfEven (e1 / t) = 1 := by omega
          rw [if_neg hz1, if_pos ho1] at h1
          have := Option.some.inj h1; omega
      · rw [if_neg hz2, if_neg ho2] at h2
        by_cases hz1 : roundHalfEven (e1 / t) = 0
        · rw [if_pos hz1] at h1
          have := Option.some.inj h1
          have := walk_ge rest h2
          omega
        · by_cases ho1 : roundHalfEven (e1 / t) = 1
          · rw [if_neg hz1, if_pos ho1] at h1
            have := Option.some.inj h1
            have := walk_ge rest h2
            omega
          · rw [if_neg hz1, if_neg ho1] at h1
            exact ih (fun x hx => hpos x (List.mem_cons_of_mem _ hx)) h1 h2

/-- If the rounded ratio at some position `j` of the table is at most 1, the
walk stops no later than position `j`, with a counter at most `c + j + 1` —
in particular it never indexes past position `j`. -/
theorem walk_stops : ∀ (l : List ℚ) (j : ℕ) (hj : j < l.length) {e : ℚ},
    0 ≤ e → (∀ t ∈ l, 0 < t) →
    roundHalfEven (e / l.get ⟨j, hj⟩) ≤ 1 →
    ∀ c, ∃ m, walk l c e = some m ∧ m ≤ c + j + 1 := by
  intro l
  induction l with
  | nil => intro j hj; exact absurd hj (by simp)
  | cons t rest ih =>
    intro j hj e he hpos hstop c
    have ht : 0 < t := hpos t (List.mem_cons_self t rest)
    have hr : 0 ≤ roundHalfEven (e / t) :=
      roundHalfEven_nonneg (div_nonneg he ht.le)
    by_cases hz : roundHalfEven (e / t) = 0
    · exact ⟨c, by simp [walk, hz], by omega⟩
    · by_cases ho : roundHalfEven (e / t) = 1
      · exact ⟨c + 1, by simp [walk, hz, ho], by omega⟩
      · cases j with
        | zero =>
          exfalso
          have hget : (t :: rest).get ⟨0, hj⟩ = t := rfl
          rw [hget] at hstop
          omega
        | succ j' =>
          have hj' : j' < rest.length := by
            simpa using hj
          have hget : (t :: rest).get ⟨j' + 1, hj⟩ = rest.get ⟨j', hj'⟩ := rfl
          obtain ⟨m, hm, hle⟩ :=
            ih j' hj' he (fun x hx => hpos x (List.mem_cons_of_mem _ hx))
              (hget ▸ hstop) (c + 1)
          exact ⟨m, by simp [walk, hz, ho, hm], by omega⟩

/-- The walk computes exactly the counter described by the amended claim C1:
the first index whose rounded ratio is at most 1, plus one when the rounded
ratio there is exactly 1. -/
theorem walk_eq_amended : ∀ (l : List ℚ) {e : ℚ}, 0 ≤ e →
    (∀ t ∈ l, 0 < t) → (∃ t ∈ l, roundHalfEven (e / t) ≤ 1) →
    ∀ c, walk l c e = some (c + amendedCounter l e) := by
  intro l
  induction l with
  | nil => intro e _ _ hex c; simp at hex
  | cons t rest ih =>
    intro e he hpos hex c
    have ht : 0 < t := hpos t (List.mem_cons_self t rest)
    have hr : 0 ≤ roundHalfEven (e / t) :=
      roundHalfEven_nonneg (div_nonneg he ht.le)
    by_cases hle : roundHalfEven (e / t) ≤ 1
    · have hfind : (t :: rest).findIdx
          (fun x => decide (roundHalfEven (e / x) ≤ 1)) = 0 := by
        simp [List.findIdx_cons, hle]
      by_cases hz : roundHalfEven (e / t) = 0
      · have hac : amendedCounter (t :: rest) e = 0 := by
          simp [amendedCounter, hfind, hz]
        rw [hac]; simp [walk, hz]
      · have ho : roundHalfEven (e / t) = 1 := by omega
        have hac : amendedCounter (t :: rest) e = 1 := by
          simp [amendedCounter, hfind, hz]
        rw [hac]; simp [walk, hz, ho]
    · have hz : ¬ roundHalfEven (e / t) = 0 := by omega
      have ho : ¬ roundHalfEven (e / t) = 1 := by omega
      have hex' : ∃ x ∈ rest, roundHalfEven (e / x) ≤ 1 := by
        rcases hex with ⟨x, hx, hxle⟩
        rcases List.mem_cons.1 hx with rfl | hx'
        · exact absurd hxle hle
        · exact ⟨x, hx', hxle⟩
      have hfind : (t :: rest).findIdx
          (fun x => decide (roundHalfEven (e / x) ≤ 1))
          = rest.findIdx (fun x => decide (roundHalfEven (e / x) ≤ 1)) + 1 := by
        simp [List.findIdx_cons, hle]
      have hamend : amendedCounter (t :: rest) e = amendedCounter rest e + 1 := by
        simp only [amendedCounter, hfind, List.getD_cons_succ]
        split <;> rfl
      have hrec := ih he (fun x hx => hpos x (List.mem_cons_of_mem _ hx)) hex' (c + 1)
      rw [hamend]
      simp only [walk, if_neg hz, if_neg ho, hrec]
      congr 1
      omega

/-! ## Audio Preprocessor (src/kitt_effect.py, `load_and_process_audio`)

Line 53 of the source is `record = record.normalize().remove_dc_offset()`:
method chaining applies `normalize()` FIRST and `remove_dc_offset()` SECOND.
The two pydub operations are external collaborators, so their semantics are
modelled from the spec's words (§4.1). -/

/-- Arithmetic mean of a sample stream (empty stream: 0/0 = 0). -/
def listMean (xs : List ℚ) : ℚ := xs.sum / xs.length

/-- Modelled from the spec: pydub's `remove_dc_offset` — "DC-offset removal
(subtract the stream's mean)". -/
def remove_dc_offset (xs : List ℚ) : List ℚ :=
  xs.map fun s => s - listMean xs

/-- Largest absolute sample value of a stream. -/
def maxAbs (xs : List ℚ) : ℚ := (xs.map fun s => |s|).foldr max 0

/-- Modelled from the spec: pydub's `normalize` — "peak-normalize so the
maximum absolute sample value maps to the representable range's maximum"
(the range maximum is 1 in the [-1, 1] sample model); a silent stream is
left unchanged. -/
def normalizeAudio (xs : List ℚ) : List ℚ :=
  if maxAbs xs = 0 then xs else xs.map fun s => s / maxAbs xs

/-- Embedding of the processing chain of `load_and_process_audio` (line 53):
`record.normalize().remove_dc_offset()`, i.e. normalize first, DC removal
second.  File loading and the mono downmix are external collaborators and are
not part of the analytically relevant chain. -/
def load_and_process_audio (xs : List ℚ) : List ℚ :=
  remove_dc_offset (normalizeAudio xs)

theorem sum_map_sub_const (ys : List ℚ) (m : ℚ) :
    (ys.map fun s => s - m).sum = ys.sum - ys.length * m := by
  induction ys with
  | nil => simp
  | cons y ys ih => simp [ih]; ring

/-- DC removal always yields a zero-mean stream. -/
theorem listMean_remove_dc_offset (ys : List ℚ) :
    listMean (remove_dc_offset ys) = 0 := by
  unfold remove_dc_offset listMean
  rw [List.length_map, sum_map_sub_const]
  rcases Nat.eq_zero_or_pos ys.length with h | h
  · rw [h]; simp
  · have hn : (ys.length : ℚ) ≠ 0 := by
      exact_mod_cast Nat.pos_iff_ne_zero.1 h
    rw [mul_div_cancel₀ _ hn, sub_self, zero_div]

/-! ## Chunk Energy Analyzer (src/kitt_effect.py,
`calculate_energy_level_of_chunks`)

Per window the source computes `np.mean(tmp**2)` (line 105), then rescales
the whole sequence by `np.sqrt(energy_of_chunks/energy_of_chunks.max())*10`
(line 109).  There is no guard on `energy_of_chunks.max() == 0`: numpy's
`0.0/0.0` yields NaN (with a runtime warning, not an exception), embedded
here as `none`; `np.sqrt` and `*10` map NaN to NaN. -/

/-- Mean squared sample value of one window (line 105). -/
def meanSquare (w : List ℚ) : ℚ := (w.map fun s => s ^ 2).sum / w.length

/-- Maximum of a list of raw window energies.  Window energies are means of
squares, hence non-negative, so folding `max` from 0 agrees with numpy's
`.max()` on the non-empty energy array. -/
def listMax (l : List ℚ) : ℚ := l.foldr max 0

/-- The division stage of line 109: each raw energy divided by the global
maximum.  When the maximum is 0 every entry is numpy's `0.0/0.0` = NaN,
embedded as `none`. -/
def normalizeEnergies (raws : List ℚ) : List (Option ℚ) :=
  raws.map fun r => if listMax raws = 0 then none else some (r / listMax raws)

/-- Embedding of `calculate_energy_level_of_chunks` on the list of windows:
mean square per window, then `sqrt(raw/max) * 10` per window (NaN propagates
through `np.sqrt` and the multiplication). -/
noncomputable def calculate_energy_level_of_chunks (ws : List (List ℚ)) :
    List (Option ℝ) :=
  (normalizeEnergies (ws.map meanSquare)).map
    (Option.map fun q : ℚ => Real.sqrt (q : ℝ) * 10)

theorem le_listMax {l : List ℚ} {a : ℚ} (h : a ∈ l) : a ≤ listMax l := by
  induction l with
  | nil => cases h
  | cons b l ih =>
    rcases List.mem_cons.1 h with rfl | h'
    · exact le_max_left _ _
    · exact le_trans (ih h') (le_max_right _ _)

theorem listMax_mem (l : List ℚ) : listMax l = 0 ∨ listMax l ∈ l := by
  induction l with
  | nil => left; rfl
  | cons b l ih =>
    rcases le_total b (listMax l) with hb | hb
    · have : listMax (b :: l) = listMax l := max_eq_right hb
      rw [this]
      rcases ih with h0 | hmem
      · exact Or.inl h0
      · exact Or.inr (List.mem_cons_of_mem _ hmem)
    · have : listMax (b :: l) = b := max_eq_left hb
      rw [this]
      exact Or.inr (List.mem_cons_self _ _)

theorem meanSquare_nonneg (w : List ℚ) : 0 ≤ meanSquare w := by
  unfold meanSquare
  apply div_nonneg
  · apply List.sum_nonneg
    intro x hx
    obtain ⟨s, _, rfl⟩ := List.mem_map.1 hx
    positivity
  · positivity

/-! ## Frame Renderer (src/kitt_effect.py, `draw_rectangles`, `draw_column`)

The per-chunk counts come from the `np.uint8` array built at line 141, so the
`count-2` / `count-4` computed at lines 230 and 232 are numpy uint8
subtractions: for `count < 2` (resp. `< 4`) they wrap around modulo 256
(e.g. `np.uint8(0) - 2 == 254`), they do not clamp at 0. -/

/-- numpy uint8 subtraction: `a - b` reduced modulo 256. -/
def sub_u8 (a b : ℕ) : ℕ := (a % 256 + (256 - b % 256)) % 256

/-- The rectangle count handed to `draw_column` for each of the five columns
(indices -2, -1, 0, 1, 2 from line 223): `count-4`, `count-2`, `count`,
`count-2`, `count-4` in uint8 arithmetic. -/
def draw_rectangles_counts (count : ℕ) : List ℕ :=
  [sub_u8 count 4, sub_u8 count 2, count, sub_u8 count 2, sub_u8 count 4]

/-- Number of `cv2.rectangle` calls `draw_column` makes for a given count:
the loop `for i in range(0, count)` draws at `i == 0`, at `0 < i < count/2`
and at `i > count/2` (Python's `/` is real division, so `i < count/2` is
`2*i < count` on integers). -/
def draw_column_rect_total (count : ℕ) : ℕ :=
  (List.range count).countP fun i =>
    decide (i = 0 ∨ (0 < i ∧ 2 * i < count) ∨ 2 * i > count)

/-! ## Pipeline order (src/main.py)

The `__main__` block runs, in order: `load_and_process_audio`,
`calculate_energy_level_of_chunks`, `get_number_of_rectangles`,
`process_video`, `produce_final_output`.  The FPS check lives inside
`get_number_of_rectangles` (it raises `ValueError` exactly when
`energy_thresholds FPS` has no table), so a configuration failure aborts the
run only after audio loading and energy analysis completed.  The trace below
records which stages complete before the first failure; the external audio
decode is assumed to succeed. -/

/-- The five pipeline stages of src/main.py, in statement order. -/
inductive Stage : Type
  | loadAudio : Stage
  | analyzeEnergy : Stage
  | quantize : Stage
  | render : Stage
  | mux : Stage
deriving DecidableEq, Repr

/-- Stages completed before the first failure, paired with the failure (if
any), for a run of src/main.py at the given FPS. -/
def mainPipeline (FPS : ℕ) : List Stage × Option PyErr :=
  match energy_thresholds FPS with
  | none => ([Stage.loadAudio, Stage.analyzeEnergy], some PyErr.valueError)
  | some _ =>
      ([Stage.loadAudio, Stage.analyzeEnergy, Stage.quantize, Stage.render,
        Stage.mux], none)

/-! ### Table-level facts -/

/-- Both threshold tables contain only positive cutoffs. -/
theorem table_pos {FPS : ℕ} {ths : List ℚ}
    (hth : energy_thresholds FPS = some ths) : ∀ t ∈ ths, 0 < t := by
  unfold energy_thresholds at hth
  split_ifs at hth
  · injection hth with h; subst h; norm_num
  · injection hth with h; subst h; norm_num

/-- Generic totality: if position 9 of the table is positive and its rounded
ratio against 10 is at most 1, the walk stops inside the table for every
energy in [0, 10], with a counter of at most 10. -/
theorem walk_total_of_table {ths : List ℚ} (hpos : ∀ t ∈ ths, 0 < t)
    (hj : 9 < ths.length) (h9 : 0 < ths.get ⟨9, hj⟩)
    (hle : roundHalfEven (10 / ths.get ⟨9, hj⟩) ≤ 1)
    {e : ℚ} (h0 : 0 ≤ e) (h10 : e ≤ 10) :
    ∃ c, walk ths 0 e = some c ∧ c ≤ 10 := by
  have hstop : roundHalfEven (e / ths.get ⟨9, hj⟩) ≤ 1 :=
    le_trans (roundHalfEven_mono (by gcongr)) hle
  obtain ⟨m, hm, hmle⟩ := walk_stops ths 9 hj h0 hpos hstop 0
  exact ⟨m, hm, by omega⟩

/-- For either supported FPS and every energy in [0, 10], the walk stops
inside the table with a counter of at most 10. -/
theorem table_total {FPS : ℕ} {ths : List ℚ}
    (hth : energy_thresholds FPS = some ths) {e : ℚ} (h0 : 0 ≤ e)
    (h10 : e ≤ 10) : ∃ c, walk ths 0 e = some c ∧ c ≤ 10 := by
  unfold energy_thresholds at hth
  split_ifs at hth
  · injection hth with h; subst h
    exact walk_total_of_table (by norm_num) (by norm_num) (by norm_num)
      (by norm_num [roundHalfEven]) h0 h10
  · injection hth with h; subst h
    exact walk_total_of_table (by norm_num) (by norm_num) (by norm_num)
      (by norm_num [roundHalfEven]) h0 h10

/-! ### Activity-level facts -/

theorem levelOfCounter_of_le {c : ℕ} (h : c ≤ 127) :
    levelOfCounter c = if c = 0 then 0 else c * 2 + 1 := by
  unfold levelOfCounter
  split
  · rfl
  · exact Nat.mod_eq_of_lt (by omega)

theorem levelOfCounter_mono {c1 c2 : ℕ} (h12 : c1 ≤ c2) (h2 : c2 ≤ 127) :
    levelOfCounter c1 ≤ levelOfCounter c2 := by
  rw [levelOfCounter_of_le (le_trans h12 h2), levelOfCounter_of_le h2]
  split_ifs <;> omega

theorem levelOfCounter_props {c : ℕ} (h : c ≤ 10) :
    (levelOfCounter c = 0 ∨ Odd (levelOfCounter c)) ∧ levelOfCounter c ≤ 21 := by
  rw [levelOfCounter_of_le (by omega)]
  split_ifs with h0
  · exact ⟨Or.inl rfl, by omega⟩
  · exact ⟨Or.inr ⟨c, by omega⟩, by omega⟩

/-- When every energy makes the walk stop with a bounded counter, the
whole quantizer call returns `ok` and every produced level comes from a
bounded counter. -/
theorem levelsOfEnergies_ok {ths : List ℚ} :
    ∀ {energies : List ℚ},
      (∀ e ∈ energies, ∃ c, walk ths 0 e = some c ∧ c ≤ 10) →
      ∃ levels, levelsOfEnergies ths energies = .ok levels ∧
        ∀ l ∈ levels, ∃ c, c ≤ 10 ∧ l = levelOfCounter c := by
  intro energies
  induction energies with
  | nil => intro _; exact ⟨[], rfl, by simp⟩
  | cons e rest ih =>
    intro h
    obtain ⟨c, hc, hcle⟩ := h e (List.mem_cons_self _ _)
    obtain ⟨ls, hls, hprops⟩ := ih fun x hx => h x (List.mem_cons_of_mem _ hx)
    refine ⟨levelOfCounter c :: ls, ?_, ?_⟩
    · simp [levelsOfEnergies, hc, hls]
    · intro l hl
      rcases List.mem_cons.1 hl with rfl | hl'
      · exact ⟨c, hcle, rfl⟩
      · exact hprops l hl'

/-! ## Claim theorems -/

/-- Claim C1, counterexample: at energy 1 with the FPS=10 table the code's
quantizer yields ActivityLevel 5 (the walk also stops when the rounded ratio
is exactly 1), while the spec's rule — stop only when the rounded ratio is
0 — yields ActivityLevel 7, so the spec's iterative rule does not compute the
code's counter. -/
theorem claim_C1_counterexample :
    quantOne ((energy_thresholds 10).getD []) 1 = some 5 ∧
    (specWalk ((energy_thresholds 10).getD []) 0 1).map levelOfCounter
      = some 7 := by
  constructor <;>
    norm_num [quantOne, energy_thresholds, walk, specWalk, roundHalfEven,
      levelOfCounter]

/-- Claim C1, amended: for every energy in [0, 10] and either supported FPS
table, the quantizer's counter is the first threshold index whose rounded
ratio against the energy is at most 1 — kept as is when that rounded ratio is
0, advanced once more when it is exactly 1 — and the level is 0 for counter 0
and counter*2 + 1 otherwise. -/
theorem claim_C1_amended {FPS : ℕ} {ths : List ℚ}
    (hth : energy_thresholds FPS = some ths) {e : ℚ} (h0 : 0 ≤ e)
    (h10 : e ≤ 10) :
    quantOne ths e = some (levelOfCounter (amendedCounter ths e)) := by
  have hmem10 : (10:ℚ) ∈ ths := by
    unfold energy_thresholds at hth
    split_ifs at hth <;> injection hth with h <;> subst h <;> norm_num
  have hex : ∃ t ∈ ths, roundHalfEven (e / t) ≤ 1 := by
    refine ⟨10, hmem10, ?_⟩
    have h1 : (e / 10 : ℚ) ≤ 1 := by
      rw [div_le_one (by norm_num)]; exact h10
    calc roundHalfEven (e / 10) ≤ roundHalfEven 1 := roundHalfEven_mono h1
      _ = 1 := by norm_num [roundHalfEven]
  have hw := walk_eq_amended ths h0 (table_pos hth) hex 0
  unfold quantOne
  rw [hw]
  simp

/-- Claim C1, witness: the amended characterization applied at energy 3/2
with the FPS=10 table. -/
theorem claim_C1_witness :
    energy_thresholds 10 = some [0.1, 0.8, 1.6, 2.4, 3.2, 4, 5, 6, 7, 8, 10] ∧
    (0:ℚ) ≤ 3/2 ∧ (3/2:ℚ) ≤ 10 ∧
    quantOne [0.1, 0.8, 1.6, 2.4, 3.2, 4, 5, 6, 7, 8, 10] (3/2)
      = some (levelOfCounter
          (amendedCounter [0.1, 0.8, 1.6, 2.4, 3.2, 4, 5, 6, 7, 8, 10] (3/2))) :=
  ⟨by norm_num [energy_thresholds], by norm_num, by norm_num,
    @claim_C1_amended 10 [0.1, 0.8, 1.6, 2.4, 3.2, 4, 5, 6, 7, 8, 10]
      (by norm_num [energy_thresholds]) (3/2) (by norm_num) (by norm_num)⟩

/-- Claim C2, counterexample: on the stream [0, 1] the code's processing
chain (normalize first, then DC removal) yields [-1/2, 1/2], while the
claimed order (DC removal first, then peak-normalization) yields [-1, 1]; the
code therefore does normalize before removing the DC offset. -/
theorem claim_C2_counterexample :
    load_and_process_audio [0, 1] = [-(1/2), 1/2] ∧
    normalizeAudio (remove_dc_offset [0, 1]) = [-1, 1] := by
  constructor <;>
    norm_num [load_and_process_audio, normalizeAudio, remove_dc_offset,
      maxAbs, listMean, max_def, abs_of_nonneg, abs_of_nonpos]

/-- Claim C2, amended: the preprocessor peak-normalizes first and removes the
DC offset second (`record.normalize().remove_dc_offset()`), so its output is
always DC-free (zero mean), anchored to the normalized — not the DC-free —
signal. -/
theorem claim_C2_amended (xs : List ℚ) :
    listMean (load_and_process_audio xs) = 0 :=
  listMean_remove_dc_offset (normalizeAudio xs)

/-- Claim C4, counterexample: at the unsupported FPS 12 the run does fail
with `ValueError` (the `UnsupportedConfiguration` of the spec), but only
after the audio has been loaded/decoded and the energy analysis has run;
rendering never happens.  This refutes "before any audio decoding [or]
energy analysis". -/
theorem claim_C4_counterexample :
    (mainPipeline 12).2 = some PyErr.valueError ∧
    Stage.loadAudio ∈ (mainPipeline 12).1 ∧
    Stage.analyzeEnergy ∈ (mainPipeline 12).1 ∧
    Stage.render ∉ (mainPipeline 12).1 := by
  decide

/-- Claim C4, amended: for every FPS outside {10, 15} the pipeline fails
with `ValueError` raised by the quantizer's table selection, after audio
decoding and energy analysis have completed but before any rendering or
muxing work. -/
theorem claim_C4_amended {FPS : ℕ} (h10 : FPS ≠ 10) (h15 : FPS ≠ 15) :
    mainPipeline FPS
        = ([Stage.loadAudio, Stage.analyzeEnergy], some PyErr.valueError) ∧
    ∀ energies, get_number_of_rectangles energies FPS
        = .error PyErr.valueError := by
  have hnone : energy_thresholds FPS = none := by
    unfold energy_thresholds; rw [if_neg h10, if_neg h15]
  constructor
  · unfold mainPipeline; rw [hnone]
  · intro energies; unfold get_number_of_rectangles; rw [hnone]

/-- Claim C4, witness: the amended statement applied at FPS 12. -/
theorem claim_C4_witness :
    (12:ℕ) ≠ 10 ∧ (12:ℕ) ≠ 15 ∧
    mainPipeline 12
        = ([Stage.loadAudio, Stage.analyzeEnergy], some PyErr.valueError) ∧
    get_number_of_rectangles [] 12 = .error PyErr.valueError :=
  ⟨by decide, by decide, (claim_C4_amended (by decide) (by decide)).1,
    (claim_C4_amended (by decide) (by decide)).2 []⟩

/-- Claim C8, counterexample: the loop has no iteration cap and no counter
clamp — at energy 20 with the FPS=10 table every rounded ratio stays at least
2, the walk exhausts all 11 thresholds and the next access
`energy_thresholds[11]` raises `IndexError` (embedded as `none`). -/
theorem claim_C8_counterexample :
    walk ((energy_thresholds 10).getD []) 0 20 = none := by
  norm_num [energy_thresholds, walk, roundHalfEven]

/-- Claim C8, amended: the code contains no explicit cap or clamp, but for
every energy in [0, 10] (all values the analyzer can produce) and either
supported table, the walk stops inside the 11-entry table — never reading
past its end — with a final counter of at most 10 (the last index). -/
theorem claim_C8_amended {FPS : ℕ} {ths : List ℚ}
    (hth : energy_thresholds FPS = some ths) {e : ℚ} (h0 : 0 ≤ e)
    (h10 : e ≤ 10) : ∃ c, walk ths 0 e = some c ∧ c ≤ 10 :=
  table_total hth h0 h10

/-- Claim C8, witness: in-bounds termination applied at energy 7 with the
FPS=15 table. -/
theorem claim_C8_witness :
    energy_thresholds 15 = some [0.6, 1, 1.5, 2.0, 2.5, 3, 3.5, 4, 5, 7, 10] ∧
    (0:ℚ) ≤ 7 ∧ (7:ℚ) ≤ 10 ∧
    ∃ c, walk [0.6, 1, 1.5, 2.0, 2.5, 3, 3.5, 4, 5, 7, 10] 0 7 = some c ∧
      c ≤ 10 :=
  ⟨by norm_num [energy_thresholds], by norm_num, by norm_num,
    @claim_C8_amended 15 [0.6, 1, 1.5, 2.0, 2.5, 3, 3.5, 4, 5, 7, 10]
      (by norm_num [energy_thresholds]) 7 (by norm_num) (by norm_num)⟩

set_option maxRecDepth 4000 in
/-- Claim C9, evaluation at the failing inputs: because the per-chunk counts
are numpy uint8 values, `count-2` / `count-4` wrap modulo 256 instead of
clamping at 0: at activity level 0 the adjacent and outer columns receive
counts 254 and 252 and `draw_column` then performs 253 (not 0) rectangle
draws; at level 3 the outer columns receive count 255 and draw 255
rectangles.  The claim's "a column whose computed count is 0 or negative
draws nothing" is the evident intent and fails on the code. -/
theorem claim_C9_eval :
    draw_rectangles_counts 0 = [252, 254, 0, 254, 252] ∧
    draw_column_rect_total 254 = 253 ∧
    draw_rectangles_counts 3 = [255, 1, 3, 1, 255] ∧
    draw_column_rect_total 255 = 255 ∧
    draw_column_rect_total 0 = 0 := by
  decide

/-- Claim C10: at half-integer ratios the quantizer rounds half to even:
0.05/0.1 = 0.5 rounds to 0 so energy 0.05 maps to ActivityLevel 0, and for
energy 0.4 the first ratio 0.4/0.1 = 4 advances the counter while
0.4/0.8 = 0.5 rounds to 0, giving ActivityLevel 3. -/
theorem claim_C10 :
    roundHalfEven ((0.05 : ℚ) / 0.1) = 0 ∧
    roundHalfEven ((0.4 : ℚ) / 0.1) = 4 ∧
    roundHalfEven ((0.4 : ℚ) / 0.8) = 0 ∧
    get_number_of_rectangles [0.05, 0.4] 10 = .ok [0, 3] := by
  refine ⟨by norm_num [roundHalfEven], by norm_num [roundHalfEven],
    by norm_num [roundHalfEven], ?_⟩
  norm_num [get_number_of_rectangles, energy_thresholds, levelsOfEnergies,
    walk, roundHalfEven, levelOfCounter]

theorem listMax_replicate_zero : ∀ n : ℕ, listMax (List.replicate n (0:ℚ)) = 0
  | 0 => rfl
  | n + 1 => by
    rw [List.replicate_succ]
    show max 0 (listMax (List.replicate n (0:ℚ))) = 0
    rw [listMax_replicate_zero n, max_self]

/-- When the global maximum is nonzero, the analyzer's output is the
pointwise `sqrt(raw/max) * 10` sequence. -/
theorem calculate_eq_of_max_ne {ws : List (List ℚ)}
    (hm0 : listMax (ws.map meanSquare) ≠ 0) :
    calculate_energy_level_of_chunks ws
      = (ws.map meanSquare).map
          (fun r => some
            (Real.sqrt ((r / listMax (ws.map meanSquare) : ℚ) : ℝ) * 10)) := by
  unfold calculate_energy_level_of_chunks normalizeEnergies
  rw [List.map_map]
  apply List.map_congr_left
  intro r _
  simp [Function.comp, hm0]

/-- Claim C3: the code does NOT guard the division by zero — on an all-silent
input (here 20 windows of 100 zero samples) every raw mean energy is 0, the
global maximum is 0, and numpy's `0.0/0.0` produces NaN (embedded `none`) in
every position; the output is NaN per window, not the all-zero EnergyValue
sequence the claim requires (the subsequent `round(NaN)` in the quantizer
then raises `ValueError`). -/
theorem claim_C3_eval :
    calculate_energy_level_of_chunks
        (List.replicate 20 (List.replicate 100 (0:ℚ)))
      = List.replicate 20 none ∧
    calculate_energy_level_of_chunks
        (List.replicate 20 (List.replicate 100 (0:ℚ)))
      ≠ List.replicate 20 (some (0:ℝ)) := by
  have hms : meanSquare (List.replicate 100 (0:ℚ)) = 0 := by
    unfold meanSquare
    simp
  have hmap : (List.replicate 20 (List.replicate 100 (0:ℚ))).map meanSquare
      = List.replicate 20 0 := by
    rw [List.map_replicate, hms]
  have hnorm : normalizeEnergies (List.replicate 20 (0:ℚ))
      = List.replicate 20 none := by
    unfold normalizeEnergies
    rw [listMax_replicate_zero]
    simp
  have hout : calculate_energy_level_of_chunks
      (List.replicate 20 (List.replicate 100 (0:ℚ)))
      = List.replicate 20 none := by
    unfold calculate_energy_level_of_chunks
    rw [hmap, hnorm, List.map_replicate]
    rfl
  refine ⟨hout, ?_⟩
  rw [hout]
  intro h
  have hmem : (none : Option ℝ) ∈ List.replicate 20 (some (0:ℝ)) := by
    rw [← h]
    exact List.mem_replicate.2 ⟨by norm_num, rfl⟩
  exact absurd (List.eq_of_mem_replicate hmem) (by simp)

/-- Claim C5: for every input whose windows are not all silent, the
analyzer's output values all exist (no NaN), each equals
`sqrt(raw/max) * 10` and lies in [0, 10], and the value 10 is attained (at a
window achieving the maximum raw mean energy). -/
theorem claim_C5 {ws : List (List ℚ)} (h : ∃ w ∈ ws, meanSquare w ≠ 0) :
    some (10:ℝ) ∈ calculate_energy_level_of_chunks ws ∧
    ∀ x ∈ calculate_energy_level_of_chunks ws,
      ∃ v : ℝ, x = some v ∧ 0 ≤ v ∧ v ≤ 10 := by
  obtain ⟨w, hw, hne⟩ := h
  have hmemw : meanSquare w ∈ ws.map meanSquare := List.mem_map_of_mem _ hw
  have hpos : 0 < meanSquare w :=
    lt_of_le_of_ne (meanSquare_nonneg w) (Ne.symm hne)
  have hmpos : 0 < listMax (ws.map meanSquare) :=
    lt_of_lt_of_le hpos (le_listMax hmemw)
  have hm0 : listMax (ws.map meanSquare) ≠ 0 := ne_of_gt hmpos
  have hcalc := calculate_eq_of_max_ne hm0
  constructor
  · have hmem : listMax (ws.map meanSquare) ∈ ws.map meanSquare := by
      rcases listMax_mem (ws.map meanSquare) with h0 | hmem
      · exact absurd h0 hm0
      · exact hmem
    rw [hcalc]
    have hval : some (Real.sqrt
        ((listMax (ws.map meanSquare) / listMax (ws.map meanSquare) : ℚ) : ℝ)
          * 10) ∈ (ws.map meanSquare).map
        (fun r => some
          (Real.sqrt ((r / listMax (ws.map meanSquare) : ℚ) : ℝ) * 10)) :=
      List.mem_map_of_mem _ hmem
    convert hval using 3
    rw [div_self hm0]
    norm_num
  · rw [hcalc]
    intro x hx
    obtain ⟨r, hr, rfl⟩ := List.mem_map.1 hx
    have hr0 : 0 ≤ r := by
      obtain ⟨w', _, rfl⟩ := List.mem_map.1 hr
      exact meanSquare_nonneg w'
    refine ⟨_, rfl, ?_, ?_⟩
    · positivity
    · have hdle : (r / listMax (ws.map meanSquare) : ℚ) ≤ 1 := by
        rw [div_le_one hmpos]
        exact le_listMax hr
      have hsle : Real.sqrt ((r / listMax (ws.map meanSquare) : ℚ) : ℝ) ≤ 1 := by
        rw [show (1:ℝ) = Real.sqrt 1 by rw [Real.sqrt_one]]
        apply Real.sqrt_le_sqrt
        exact_mod_cast hdle
      nlinarith [Real.sqrt_nonneg (((r / listMax (ws.map meanSquare) : ℚ)) : ℝ)]

/-- Claim C5, witness: applied to the two-window input [[0], [2]] (raw
energies 0 and 4), whose output attains the value 10. -/
theorem claim_C5_witness :
    (∃ w ∈ [[(0:ℚ)], [2]], meanSquare w ≠ 0) ∧
    some (10:ℝ) ∈ calculate_energy_level_of_chunks [[(0:ℚ)], [2]] := by
  have h : ∃ w ∈ [[(0:ℚ)], [2]], meanSquare w ≠ 0 := by
    refine ⟨[2], by norm_num, ?_⟩
    norm_num [meanSquare]
  exact ⟨h, (claim_C5 h).1⟩

/-- Claim C6: for every energy sequence with values in [0, 10] and either
supported FPS, the quantizer returns a level sequence in which every level is
0 or odd and at most 21. -/
theorem claim_C6 {energies : List ℚ}
    (hE : ∀ e ∈ energies, 0 ≤ e ∧ e ≤ 10) {FPS : ℕ} {ths : List ℚ}
    (hth : energy_thresholds FPS = some ths) :
    ∃ levels, get_number_of_rectangles energies FPS = .ok levels ∧
      ∀ l ∈ levels, (l = 0 ∨ Odd l) ∧ l ≤ 21 := by
  obtain ⟨levels, hlv, hprops⟩ := levelsOfEnergies_ok
    (fun e he => table_total hth (hE e he).1 (hE e he).2)
  refine ⟨levels, ?_, ?_⟩
  · unfold get_number_of_rectangles
    rw [hth]
    exact hlv
  · intro l hl
    obtain ⟨c, hc, rfl⟩ := hprops l hl
    exact levelOfCounter_props hc

/-- Claim C6, witness: applied to the energy sequence [0, 5, 10] at
FPS 10. -/
theorem claim_C6_witness :
    (∀ e ∈ [(0:ℚ), 5, 10], 0 ≤ e ∧ e ≤ 10) ∧
    energy_thresholds 10 = some [0.1, 0.8, 1.6, 2.4, 3.2, 4, 5, 6, 7, 8, 10] ∧
    ∃ levels, get_number_of_rectangles [(0:ℚ), 5, 10] 10 = .ok levels ∧
      ∀ l ∈ levels, (l = 0 ∨ Odd l) ∧ l ≤ 21 :=
  ⟨by norm_num, by norm_num [energy_thresholds],
    @claim_C6 [(0:ℚ), 5, 10] (by norm_num) 10
      [0.1, 0.8, 1.6, 2.4, 3.2, 4, 5, 6, 7, 8, 10]
      (by norm_num [energy_thresholds])⟩

/-- Claim C7: quantizer monotonicity — for a fixed supported FPS table and
energies 0 ≤ e1 < e2 ≤ 10, both quantize successfully and the activity level
of e1 is at most that of e2. -/
theorem claim_C7 {FPS : ℕ} {ths : List ℚ}
    (hth : energy_thresholds FPS = some ths) {e1 e2 : ℚ} (h0 : 0 ≤ e1)
    (h12 : e1 < e2) (h10 : e2 ≤ 10) :
    ∃ l1 l2, quantOne ths e1 = some l1 ∧ quantOne ths e2 = some l2 ∧
      l1 ≤ l2 := by
  obtain ⟨c1, hc1, hc1le⟩ := table_total hth h0 (le_trans (le_of_lt h12) h10)
  obtain ⟨c2, hc2, hc2le⟩ := table_total hth
    (le_trans h0 (le_of_lt h12)) h10
  have hcle : c1 ≤ c2 := walk_mono h0 (le_of_lt h12) ths (table_pos hth) hc1 hc2
  exact ⟨levelOfCounter c1, levelOfCounter c2, by simp [quantOne, hc1],
    by simp [quantOne, hc2], levelOfCounter_mono hcle (by omega)⟩

/-- Claim C7, witness: monotonicity applied at e1 = 1 and e2 = 2 with the
FPS=10 table. -/
theorem claim_C7_witness :
    energy_thresholds 10 = some [0.1, 0.8, 1.6, 2.4, 3.2, 4, 5, 6, 7, 8, 10] ∧
    (0:ℚ) ≤ 1 ∧ (1:ℚ) < 2 ∧ (2:ℚ) ≤ 10 ∧
    ∃ l1 l2,
      quantOne [0.1, 0.8, 1.6, 2.4, 3.2, 4, 5, 6, 7, 8, 10] 1 = some l1 ∧
      quantOne [0.1, 0.8, 1.6, 2.4, 3.2, 4, 5, 6, 7, 8, 10] 2 = some l2 ∧
      l1 ≤ l2 :=
  ⟨by norm_num [energy_thresholds], by norm_num, by norm_num, by norm_num,
    @claim_C7 10 [0.1, 0.8, 1.6, 2.4, 3.2, 4, 5, 6, 7, 8, 10]
      (by norm_num [energy_thresholds]) 1 2 (by norm_num) (by norm_num)
      (by norm_num)⟩

end KittEffect
